import Mathlib

/-!
Verification of the reconciliation and session-accounting core of the
calendar/ledger automation repository.  Python string handling is embedded
over `List Char` (ASCII scope); machine floats appearing in the price
computation are modelled as exact rationals, and theorems touching that code
path are stated for integer dollar amounts, where IEEE double arithmetic is
exact and the model provably coincides with the source.
-/

namespace Matt

/- ### Python string primitives -/

/-- ASCII whitespace recognised by Python `str.strip` and `int`/`float`. -/
def pyIsSpace (c : Char) : Bool :=
  c = ' ' || c = '\t' || c = '\n' || c = '\x0d' || c = '\x0b' || c = '\x0c'

/-- Python `str.strip()` on a character list. -/
def pyStripL (xs : List Char) : List Char :=
  ((xs.dropWhile pyIsSpace).reverse.dropWhile pyIsSpace).reverse

/-- Python `str.strip()`. -/
def pyStrip (s : String) : String :=
  String.mk (pyStripL s.data)

/-- Python `str.lower()` on one ASCII character. -/
def pyLowerC (c : Char) : Char :=
  if 'A' ≤ c ∧ c ≤ 'Z' then Char.ofNat (c.toNat + 32) else c

/-- Python `str.lower()` on a character list. -/
def pyLowerL (xs : List Char) : List Char :=
  xs.map pyLowerC

/-- Python `str.lower()`. -/
def pyLower (s : String) : String :=
  String.mk (pyLowerL s.data)

/-- Decimal value of a digit list (most significant first). -/
def digitsToNat (xs : List Char) : Nat :=
  xs.foldl (fun a c => 10 * a + (c.toNat - 48)) 0

/-- All characters are ASCII decimal digits. -/
def allDigits (xs : List Char) : Bool :=
  xs.all Char.isDigit

/-- Digit body acceptable to Python `int`/`float` literals: nonempty,
digits with single underscores allowed only between digits. -/
def validDigitBody (xs : List Char) : Bool :=
  xs ≠ [] &&
  xs.all (fun c => c.isDigit || c = '_') &&
  (match xs.head? with | some c => c ≠ '_' | none => false) &&
  (match xs.getLast? with | some c => c ≠ '_' | none => false) &&
  (xs.zip xs.tail).all (fun p => !(p.1 = '_' && p.2 = '_'))

/-- Value of a digit body, ignoring underscores. -/
def digitBodyVal (xs : List Char) : Nat :=
  digitsToNat (xs.filter (fun c => c ≠ '_'))

/-- Python `int(s)` on a character list: optional surrounding whitespace,
optional sign, then a digit body (ASCII scope). `none` models `ValueError`. -/
def pyIntL (xs : List Char) : Option Int :=
  let ys := pyStripL xs
  match ys with
  | '+' :: rest => if validDigitBody rest then some (digitBodyVal rest) else none
  | '-' :: rest => if validDigitBody rest then some (-(digitBodyVal rest : Int)) else none
  | _ => if validDigitBody ys then some (digitBodyVal ys) else none

/-- Python `int(s)`. -/
def pyInt (s : String) : Option Int :=
  pyIntL s.data

/-- Python `s.split(sep)` worker.  The fuel starts at the length of the
string, which strictly exceeds the recursion depth because every step
consumes at least one character. -/
def splitOnAux (sep : List Char) : Nat → List Char → List Char → List (List Char)
  | _, [], acc => [acc.reverse]
  | 0, xs, acc => [acc.reverse ++ xs]
  | Nat.succ fuel, c :: rest, acc =>
    if sep.isPrefixOf (c :: rest) then
      acc.reverse :: splitOnAux sep fuel (List.drop (sep.length - 1) rest) []
    else
      splitOnAux sep fuel rest (c :: acc)

/-- Python `s.split(sep)` for a nonempty separator string: non-overlapping
occurrences, scanned left to right. -/
def pySplitSub (s : String) (sep : String) : List String :=
  (splitOnAux sep.data s.data.length s.data []).map String.mk

/-- Python `s.split(sep)` with a one-character separator, on lists. -/
def splitOnChar (c : Char) (xs : List Char) : List (List Char) :=
  splitOnAux [c] xs.length xs []

/-- Python `s.split()` (no argument) worker: split on whitespace runs,
dropping empty fields. -/
def splitWsAux : List Char → List Char → List (List Char)
  | [], acc => if acc = [] then [] else [acc.reverse]
  | c :: rest, acc =>
    if pyIsSpace c then
      if acc = [] then splitWsAux rest [] else acc.reverse :: splitWsAux rest []
    else
      splitWsAux rest (c :: acc)

/-- Python `s.split()` (no argument). -/
def splitWsL (xs : List Char) : List (List Char) :=
  splitWsAux xs []

/-- Python substring test `p in xs` (contiguous occurrence). -/
def isSubList (p : List Char) : List Char → Bool
  | [] => List.isPrefixOf p []
  | x :: rest => List.isPrefixOf p (x :: rest) || isSubList p rest

/- ### SessionCounter: `SheetManager.decrement_session` -/

/-- `src/src/sheet_manager.py`, `decrement_session`: despite its name it
moves the counter forward.  `current, total = map(int, s.strip().split(' of '))`
succeeds only for exactly two integer fields; any `ValueError` (from `int`
or from unpacking) yields the `"1 of 1"` default. -/
def decrement_session (current_session : String) : String :=
  match pySplitSub (pyStrip current_session) " of " with
  | [a, b] =>
    match pyInt a, pyInt b with
    | some current, some total =>
      toString (current + 1) ++ " of " ++ toString total
    | _, _ => "1 of 1"
  | _ => "1 of 1"

/-- The condition under which `decrement_session` takes its parsing branch:
the stripped input splits on `" of "` into exactly two `int`-parseable fields. -/
def progressWellFormed (s : String) : Bool :=
  match pySplitSub (pyStrip s) " of " with
  | [a, b] => (pyInt a).isSome && (pyInt b).isSome
  | _ => false

/- ### NameMatcher: difflib.SequenceMatcher and `SheetManager.similar` -/

/-- The best matching block returned by `difflib` matching: starting index in
`a`, starting index in `b`, and size. -/
structure MatchBlock where
  besti : Nat
  bestj : Nat
  bestsize : Nat
deriving DecidableEq, Repr

/-- `b2j[c]`: the positions of character `c` in `b`, in increasing order.
Names here are short (under difflib autojunk threshold 200), so no junk
heuristic applies. -/
def b2jList (b : List Char) (c : Char) : List Nat :=
  (List.range b.length).filter (fun j => b.getD j ' ' = c)

/-- Lookup in the `j2len` running dictionary (keys are distinct). -/
def j2lenGet (m : List (Nat × Nat)) (j : Nat) : Nat :=
  match m.find? (fun p => p.1 = j) with
  | some p => p.2
  | none => 0

/-- One row (fixed `i`) of the `find_longest_match` dynamic program:
`old` is the previous `j2len`, `js` the in-range positions of `a[i]` in `b`.
Returns the new `j2len` together with the updated best block.  The best block
is replaced only on strictly larger size, so the first maximal block in scan
order wins, exactly as in difflib. -/
def flmRow (old : List (Nat × Nat)) (i : Nat) (js : List Nat) (best : MatchBlock) :
    List (Nat × Nat) × MatchBlock :=
  js.foldl
    (fun acc j =>
      let k := (if j = 0 then 0 else j2lenGet old (j - 1)) + 1
      let b2 := if k > acc.2.bestsize then MatchBlock.mk (i + 1 - k) (j + 1 - k) k else acc.2
      ((j, k) :: acc.1, b2))
    ([], best)

/-- `difflib.SequenceMatcher.find_longest_match` on the ranges
`a[alo:ahi]`, `b[blo:bhi]` (no junk). -/
def find_longest_match (a b : List Char) (alo ahi blo bhi : Nat) : MatchBlock :=
  ((List.range' alo (ahi - alo)).foldl
    (fun acc i =>
      let js := (b2jList b (a.getD i ' ')).filter (fun j => decide (blo ≤ j) && decide (j < bhi))
      flmRow acc.1 i js acc.2)
    ([], MatchBlock.mk alo blo 0)).2

/-- Total size of the matching blocks (the `matches` count used by
`SequenceMatcher.ratio`), computed by the recursive block decomposition of
`get_matching_blocks`.  Each recursive call strictly shrinks `ahi - alo`
(a nonzero block has `alo ≤ besti < ahi`), so fuel `a.length + 1` is never
exhausted on the initial full range. -/
def matchedTotalAux (a b : List Char) : Nat → Nat → Nat → Nat → Nat → Nat
  | 0, _, _, _, _ => 0
  | Nat.succ fuel, alo, ahi, blo, bhi =>
    let m := find_longest_match a b alo ahi blo bhi
    if m.bestsize = 0 then 0
    else
      m.bestsize
        + matchedTotalAux a b fuel alo m.besti blo m.bestj
        + matchedTotalAux a b fuel (m.besti + m.bestsize) ahi (m.bestj + m.bestsize) bhi

/-- Total matched characters between `a` and `b`. -/
def matchedTotal (a b : List Char) : Nat :=
  matchedTotalAux a b (a.length + 1) 0 a.length 0 b.length

/-- `SequenceMatcher(None, a, b).ratio() > 0.85`, decided exactly:
`2*M/(|a|+|b|) > 17/20  ↔  40*M > 17*(|a|+|b|)`.  (For the short strings in
play the float comparison agrees with the exact rational one.)  difflib
returns ratio `1.0` when both sequences are empty. -/
def ratioAbove (a b : List Char) : Bool :=
  if a.length + b.length = 0 then true
  else 40 * matchedTotal a b > 17 * (a.length + b.length)

/-- `src/src/sheet_manager.py`, `SheetManager.similar`: false on empty input,
otherwise the stripped, lowercased similarity test at threshold 0.85. -/
def similar (a b : String) : Bool :=
  if a = "" || b = "" then false
  else ratioAbove (pyLowerL (pyStripL a.data)) (pyLowerL (pyStripL b.data))

/- ### DateParser: `parse_date` -/

/-- Calendar date as produced by `datetime.date`. -/
structure PyDate where
  year : Nat
  month : Nat
  day : Nat
deriving DecidableEq, Repr

/-- Gregorian leap year. -/
def isLeapYear (y : Nat) : Bool :=
  (y % 4 = 0 && y % 100 ≠ 0) || y % 400 = 0

/-- Days in a month (Gregorian). -/
def daysInMonth (y m : Nat) : Nat :=
  if m = 2 then (if isLeapYear y then 29 else 28)
  else if m = 4 || m = 6 || m = 9 || m = 11 then 30
  else 31

/-- `datetime.date(y, m, d)` constructor validation (MINYEAR = 1,
MAXYEAR = 9999). -/
def dateFromYMD (y m d : Nat) : Option PyDate :=
  if 1 ≤ y && y ≤ 9999 && 1 ≤ m && m ≤ 12 && 1 ≤ d && d ≤ daysInMonth y m then
    some (PyDate.mk y m d)
  else none

/-- strptime `%Y` field: exactly four digits. -/
def fieldY (xs : List Char) : Bool :=
  xs.length = 4 && allDigits xs

/-- strptime `%m`/`%d` fields: one or two digits with a nonzero value in
range (months 1..12, days 1..31 by the regex; finer validation is done by
the `date` constructor). -/
def fieldOneTwo (hi : Nat) (xs : List Char) : Bool :=
  (xs.length = 1 || xs.length = 2) && allDigits xs &&
  1 ≤ digitsToNat xs && digitsToNat xs ≤ hi

/-- `datetime.strptime(s, '%Y-%m-%d').date()` as used on `date_str[:10]`. -/
def strptimeISO (xs : List Char) : Option PyDate :=
  match splitOnChar '-' xs with
  | [ys, ms, ds] =>
    if fieldY ys && fieldOneTwo 12 ms && fieldOneTwo 31 ds then
      dateFromYMD (digitsToNat ys) (digitsToNat ms) (digitsToNat ds)
    else none
  | _ => none

/-- `datetime.strptime(s, '%m/%d/%Y').date()`. -/
def strptimeMDY (xs : List Char) : Option PyDate :=
  match splitOnChar '/' xs with
  | [ms, ds, ys] =>
    if fieldOneTwo 12 ms && fieldOneTwo 31 ds && fieldY ys then
      dateFromYMD (digitsToNat ys) (digitsToNat ms) (digitsToNat ds)
    else none
  | _ => none

/-- `parse_date` (`src/google_calendar_sheets_automation.py` and
`src/zjunk/data_processor.py`): strip, try ISO on the first ten characters,
fall back to `M/D/YYYY`.  `none` models the propagated `ValueError`; the
explicit empty-string check of the `data_processor` version raises exactly
where both formats fail, so one model serves both. -/
def parse_date (date_str : String) : Option PyDate :=
  let xs := pyStripL date_str.data
  match strptimeISO (xs.take 10) with
  | some d => some d
  | none => strptimeMDY xs

/-- Date order `d1 <= d2` (lexicographic on year, month, day), as Python
compares `datetime.date` values. -/
def dateLe (d1 d2 : PyDate) : Bool :=
  d1.year < d2.year ||
  (d1.year = d2.year && (d1.month < d2.month ||
    (d1.month = d2.month && d1.day ≤ d2.day)))

/- ### Canonical name resolution: `SheetManager.get_canonical_name` -/

/-- `collections.Counter` increment: bump the count of `k`, keeping the
insertion order of keys (a new key is appended at the end), as Python dicts
do. -/
def bump : List (String × Nat) → String → List (String × Nat)
  | [], k => [(k, 1)]
  | (k0, c) :: rest, k =>
    if k0 = k then (k0, c + 1) :: rest else (k0, c) :: bump rest k

/-- Count stored for key `k` (0 when absent). -/
def countOf (m : List (String × Nat)) (k : String) : Nat :=
  match m.find? (fun p => p.1 = k) with
  | some p => p.2
  | none => 0

/-- Strict-maximum step: replace the best entry only on a strictly larger
count, so the first maximal entry in scan order survives. -/
def pickMax (best p : String × Nat) : String × Nat :=
  if p.2 > best.2 then p else best

/-- `Counter.most_common(1)[0][0]`: the first-inserted key of maximal count
(`heapq.nlargest` is stable, so ties keep insertion order). -/
def mostCommonKey : List (String × Nat) → Option String
  | [] => none
  | p :: rest => some ((rest.foldl pickMax p).1)

/-- Loop body of `get_canonical_name`: state is `(name_variants, name_counts)`;
rows shorter than two cells are skipped; a similar row bumps the
case-insensitive count and records the first-seen capitalization. -/
def canonStep (client_name : String) (st : List (String × String) × List (String × Nat))
    (row : List String) : List (String × String) × List (String × Nat) :=
  if 1 < row.length then
    let current_name := pyStrip (row.getD 1 "")
    if similar current_name client_name then
      let lowercase_name := pyLower current_name
      let variants :=
        if (st.1.find? (fun p => p.1 = lowercase_name)).isSome then st.1
        else st.1 ++ [(lowercase_name, current_name)]
      (variants, bump st.2 lowercase_name)
    else st
  else st

/-- `src/src/sheet_manager.py`, `SheetManager.get_canonical_name`: scan
`all_values[1:]`, tally similar spellings case-insensitively, return the
most common spelling in its first-seen capitalization, or the query name
when nothing similar exists.  (The inner dictionary lookup cannot miss for a
counted key, so the final fallback to `client_name` is unreachable.) -/
def get_canonical_name (client_name : String) (all_values : List (List String)) : String :=
  let st := (all_values.drop 1).foldl (canonStep client_name) ([], [])
  match mostCommonKey st.2 with
  | none => client_name
  | some k =>
    match st.1.find? (fun p => p.1 = k) with
    | some p => p.2
    | none => client_name

/-- The stripped similar client-name cells among a row list, in scan order
(specification-side view of the loop of `get_canonical_name`). -/
def rowVariants (client_name : String) (rows : List (List String)) : List String :=
  (rows.filter
    (fun row => 1 < row.length && similar (pyStrip (row.getD 1 "")) client_name)).map
    (fun row => pyStrip (row.getD 1 ""))

/-- The variants seen by `get_canonical_name` (which skips the header row). -/
def variantsOf (client_name : String) (all_values : List (List String)) : List String :=
  rowVariants client_name (all_values.drop 1)

/-- The effect of one similar variant `name` on the
`(name_variants, name_counts)` state of `get_canonical_name`. -/
def variantStep (st : List (String × String) × List (String × Nat)) (name : String) :
    List (String × String) × List (String × Nat) :=
  let k := pyLower name
  (if (st.1.find? (fun p => p.1 = k)).isSome then st.1 else st.1 ++ [(k, name)],
   bump st.2 k)

/-- Keys of a list in first-occurrence order (deduplicated). -/
def firstOccs : List String → List String
  | [] => []
  | x :: xs => x :: (firstOccs xs).filter (fun y => y ≠ x)

/-- Number of occurrences of `k` in `l` (specification-side counter). -/
def countEq (l : List String) (k : String) : Nat :=
  (l.filter (fun x => x = k)).length

/-- Index of the first occurrence of `k` in `l` (length of `l` when absent;
specification-side). -/
def firstIdx : List String → String → Nat
  | [], _ => 0
  | x :: xs, k => if x = k then 0 else firstIdx xs k + 1

/- ### LedgerMerger: `SheetManager.add_unmatched_sessions` -/

/-- An unmatched session as consumed by `add_unmatched_sessions`
(`session['client_name']`, `session['date']`). -/
structure UnmatchedSession where
  client_name : String
  date : String
deriving DecidableEq, Repr

/-- The most recent ledger row similar to the canonical name:
`for row in reversed(all_values): if row and len(row) > 1 and
self.similar(row[1], client_name): ...`. -/
def findLastClientData (client_name : String) (all_values : List (List String)) :
    Option (List String) :=
  all_values.reverse.find?
    (fun row => 1 < row.length && similar (row.getD 1 "") client_name)

/-- Python `s.replace(c, '')` for a single character. -/
def removeChar (c : Char) (s : String) : String :=
  String.mk (s.data.filter (fun x => x ≠ c))

/-- Python `float(s)` on plain decimal literals (optional sign, digits,
optional fractional part), modelled as the exact rational value, represented
as a numerator/denominator pair `(n, 10^k)`; `none` models `ValueError`.
Exponents, underscores and `inf`/`nan` spellings are outside the scope of
the prices handled here, and IEEE rounding is idealized away: theorems
using this are stated for integer dollar amounts, where the double
computation in the source is exact. -/
def pyFloat10 (s : String) : Option (Int × Nat) :=
  let xs := pyStripL s.data
  let sgn : Int × List Char :=
    match xs with
    | '+' :: r => (1, r)
    | '-' :: r => (-1, r)
    | r => (1, r)
  let ip := sgn.2.takeWhile Char.isDigit
  let rest := sgn.2.dropWhile Char.isDigit
  match rest with
  | [] => if ip ≠ [] then some (sgn.1 * (digitsToNat ip : Int), 1) else none
  | '.' :: fr =>
    if allDigits fr && (ip ≠ [] || fr ≠ []) then
      some (sgn.1 * ((digitsToNat ip : Int) * (10 : Int) ^ fr.length + (digitsToNat fr : Int)),
        10 ^ fr.length)
    else none
  | _ => none

/-- Progress parse `current, total = map(int, s.split(' of '))` (note: no
strip here, unlike `decrement_session`); `none` models the caught
`ValueError` from parsing or unpacking. -/
def parseProgress (s : String) : Option (Int × Int) :=
  match pySplitSub s " of " with
  | [a, b] =>
    match pyInt a, pyInt b with
    | some c, some t => some (c, t)
    | _, _ => none
  | _ => none

/-- The loop body of `add_unmatched_sessions`, computing the emitted ledger
row for one session against the snapshot: resolve the canonical name, find
the last similar row, then fill progress, price, payment and status with the
source defaults.  When the progress parse succeeds but `float(last_price)`
raises, the source resets the progress to `"1 of 1"` inside the same
`except` handler. -/
def computeNewRow (all_values : List (List String)) (session : UnmatchedSession) :
    List String :=
  let client_name := get_canonical_name session.client_name all_values
  let date := session.date
  match findLastClientData client_name all_values with
  | none =>
    [date, client_name, "Individual", "1 of 1", "???", "", "MONTHLY CALC??", "NEW CLIENT"]
  | some r =>
    let last_price := if 4 < r.length && r.getD 4 "" ≠ "" then r.getD 4 "" else "???"
    let prog :=
      if 3 < r.length && r.getD 3 "" ≠ "" then
        match parseProgress (r.getD 3 "") with
        | none => ("1 of 1", "")
        | some (current, total) =>
          let current_session := toString (current + 1) ++ " of " ++ toString total
          if current + 1 ≥ total && last_price ≠ "???" then
            match pyFloat10 (removeChar '$' last_price) with
            | none => ("1 of 1", "")
            | some price =>
              (current_session,
                "DUE: $" ++ toString (Int.tdiv (price.1 * total) (price.2 : Int)))
          else (current_session, "")
      else ("1 of 1", "")
    [date, client_name, "Individual", prog.1, last_price, prog.2, "MONTHLY CALC??", ""]

/-- Forward scan computing the 1-based index of the last row with data:
`best` holds the best answer so far, `i` the 0-based index of the next row. -/
def lastRowAux : List (List String) → Nat → Nat → Nat
  | [], _, best => best
  | row :: rest, i, best =>
    lastRowAux rest (i + 1) (if row.any (fun cell => cell ≠ "") then i + 1 else best)

/-- `find_last_row_with_data`: 1-based index of the last row holding any
non-empty cell; 1 when no row does.  (The source scans from the end and
returns on the first row with data; scanning forward and keeping the last
hit computes the same index.) -/
def find_last_row_with_data (values : List (List String)) : Nat :=
  lastRowAux values 0 1

/-- `add_unmatched_sessions` batch result: the emitted rows (one per session,
in input order), the 1-based first written row `last_row + 1`, and the row
capacity after the conditional `add_rows` growth (`+100` buffer).
`sheetValues` is the worksheet content used to locate the last row (in the
automation run it is the same data as the `all_values` snapshot). -/
def add_unmatched_sessions (unmatched : List UnmatchedSession)
    (all_values sheetValues : List (List String)) (sheetRows : Nat) :
    List (List String) × Nat × Nat :=
  let last_row := find_last_row_with_data sheetValues
  let new_rows := unmatched.map (computeNewRow all_values)
  let needed_rows := last_row + new_rows.length
  let cap :=
    if new_rows ≠ [] ∧ sheetRows < needed_rows then
      sheetRows + (needed_rows - sheetRows + 100)
    else sheetRows
  (new_rows, last_row + 1, cap)

/-- Effect of `update_values(f'A{start1}:H...', rows)` on the grid: pad to
the needed length with empty rows, then overwrite the block starting at the
1-based row `start1`. -/
def writeRowsAt (grid : List (List String)) (start1 : Nat) (rows : List (List String)) :
    List (List String) :=
  let base := start1 - 1
  let padded := grid ++ List.replicate (base + rows.length - grid.length) []
  padded.take base ++ rows ++ padded.drop (base + rows.length)

/- ### EventReconciler: `DataProcessor.process_events` -/

/-- A calendar event as consumed by the core: the resolved start string
(`start.dateTime` or `start.date`, one of which the event shape guarantees),
the title and the description. -/
structure CalEvent where
  start : String
  summary : String
  description : String
deriving DecidableEq, Repr

/-- One roster client matches an event when any whitespace token of the
lowercased client name occurs as a substring of the lowercased title or
description. -/
def clientMatchesEvent (client : String) (title desc : String) : Bool :=
  (splitWsL (pyLowerL client.data)).any
    (fun part => isSubList part (pyLowerL title.data) || isSubList part (pyLowerL desc.data))

/-- The inner roster loop with `break`: the first matching client in
insertion order, if any. -/
def firstMatchingClient (roster : List String) (title desc : String) : Option String :=
  match roster with
  | [] => none
  | c :: rest =>
    if clientMatchesEvent c title desc then some c
    else firstMatchingClient rest title desc

/-- `defaultdict` update `clients_met[client]`: append the event and bump the
session count, keeping first-touch key order. -/
def addMet (met : List (String × (List CalEvent × Nat))) (client : String) (e : CalEvent) :
    List (String × (List CalEvent × Nat)) :=
  match met with
  | [] => [(client, ([e], 1))]
  | (k, v) :: rest =>
    if k = client then (k, (v.1 ++ [e], v.2 + 1)) :: rest
    else (k, v) :: addMet rest client e

/-- Bucket of a client in `clients_met` (`defaultdict` default: no events,
zero sessions). -/
def metLookup (met : List (String × (List CalEvent × Nat))) (client : String) :
    List CalEvent × Nat :=
  match met.find? (fun p => p.1 = client) with
  | some p => p.2
  | none => ([], 0)

/-- Body of the event loop of `process_events`: parse the start date
(skipping the event on `ValueError`), then credit the first matching roster
client, if any.  The parsed date itself is not stored. -/
def procStep (roster : List String) (met : List (String × (List CalEvent × Nat)))
    (e : CalEvent) : List (String × (List CalEvent × Nat)) :=
  match parse_date e.start with
  | none => met
  | some _ =>
    match firstMatchingClient roster e.summary e.description with
    | none => met
    | some c => addMet met c e

/-- `src/zjunk/data_processor.py`, `DataProcessor.process_events`. -/
def process_events (events : List CalEvent) (roster : List String) :
    List (String × (List CalEvent × Nat)) :=
  events.foldl (procStep roster) []

/- ### Ledger cross-check: `create_sessions_tab` match status -/

/-- The `(client, date)` index over `sales_data[1:]` with the
previous-week window filter of `create_sessions_tab`
(`src/zjunk/google_calendar_sheets_automation.py`): rows long enough whose
date cell is non-blank contribute their normalized client name and parsed
date when the date falls in the window.  A `ValueError` from `parse_date`
on a contributing row aborts the whole construction (`none`). -/
def salesStep (client_col date_col : Nat) (ws we : PyDate) (row : List String)
    (acc : Option (List (String × PyDate))) : Option (List (String × PyDate)) :=
  match acc with
  | none => none
  | some l =>
    if max client_col date_col < row.length && pyStrip (row.getD date_col "") ≠ "" then
      match parse_date (row.getD date_col "") with
      | none => none
      | some d =>
        if dateLe ws d && dateLe d we then
          some ((pyLower (pyStrip (row.getD client_col "")), d) :: l)
        else some l
    else some l

/-- See the doc comment above: the windowed `(client, date)` index. -/
def buildSalesPairs (sales_data : List (List String)) (client_col date_col : Nat)
    (ws we : PyDate) : Option (List (String × PyDate)) :=
  (sales_data.drop 1).foldr (salesStep client_col date_col ws we) (some [])

/-- Match status of one session against the index:
`"MATCH" if (client.strip().lower(), date) in sales_client_dates else "NO MATCH"`. -/
def session_match_status (client : String) (d : PyDate)
    (pairs : List (String × PyDate)) : String :=
  if (pyLower (pyStrip client), d) ∈ pairs then "MATCH" else "NO MATCH"

/- ### Concrete fixtures used by the witness theorems -/

/-- Ledger snapshot with one existing client for the merge witnesses. -/
def avBob : List (List String) :=
  [["DATE", "CLIENT NAME", "TYPE", "CURRENT SESSION", "PRICE PER SESSION"],
   ["08/26/2024", "Bob Jones", "Individual", "2 of 10", "$50", "", "", ""]]

/-- Ledger snapshot whose last client row completes a package. -/
def avDue : List (List String) :=
  [["DATE", "CLIENT NAME", "TYPE", "CURRENT SESSION", "PRICE PER SESSION"],
   ["09/01/2024", "Bob Jones", "Individual", "9 of 10", "$50", "", "", ""]]

/-- Ledger snapshot with ragged rows for the safety witnesses. -/
def avRagged : List (List String) :=
  [["DATE", "CLIENT NAME"],
   ["x"],
   ["09/01/2024", "Bob Jones", "Individual", "3 of 5", "$40", "", "", ""],
   ["09/02/2024", "Bob Jones", "Individual", "", ""]]

/-- Ledger snapshot with spelling variants for the canonical-name witness:
three rows spell the name one way, one row another way. -/
def avDale : List (List String) :=
  [["DATE", "CLIENT NAME"],
   ["09/01/2024", "Dale Scaiano"],
   ["09/02/2024", "dale Scaiano"],
   ["09/03/2024", "Dale Scaiano"],
   ["09/04/2024", "Dale Scaiano"]]

/-- Roster for the event-matching witness. -/
def rosterW : List String :=
  ["Al Smith", "Bob Jones"]

/-- Event for the event-matching witness. -/
def eventW : CalEvent :=
  CalEvent.mk "2024-10-07" "smith session" ""

/-- Sales data for the cross-check witness. -/
def salesW : List (List String) :=
  [["DATE", "CLIENT NAME"],
   ["10/07/2024", "Dale Scaiano"]]

/-! ## Theorems -/

/-- Claim C3: on inputs of the form `"C of T"` with two `int`-parseable
fields the session-counter returns `"C+1 of T"`, and on every other input it
returns the `"1 of 1"` default (the embedded function is total, so the
source's caught `ValueError` never escapes). -/
theorem claim_C3 :
    (∀ (s sc st : String) (c t : Int),
        pySplitSub (pyStrip s) " of " = [sc, st] →
        pyInt sc = some c → pyInt st = some t →
        decrement_session s = toString (c + 1) ++ " of " ++ toString t) ∧
    (∀ s : String, progressWellFormed s = false → decrement_session s = "1 of 1") := by
  constructor
  · intro s sc st c t hsplit hc ht
    simp only [decrement_session, hsplit, hc, ht]
  · intro s h
    simp only [progressWellFormed] at h
    simp only [decrement_session]
    rcases hsp : pySplitSub (pyStrip s) " of " with _ | ⟨a, _ | ⟨b, _ | ⟨x, l⟩⟩⟩ <;>
      simp only [hsp] at h ⊢
    rcases hpa : pyInt a with _ | ca <;> rcases hpb : pyInt b with _ | cb <;>
      simp [hpa, hpb] at h ⊢

/-- Claim C3 witness: the two documented example evaluations. -/
theorem claim_C3_witness :
    decrement_session "3 of 5" = "4 of 5" ∧ decrement_session "invalid" = "1 of 1" := by
  refine ⟨?_, claim_C3.2 "invalid" (by decide)⟩
  have h := claim_C3.1 "3 of 5" "3" "5" 3 5 (by decide) (by decide) (by decide)
  exact h.trans (by decide)

/-- Claim C4 (code bug): the function named `decrement_session` increments.
On `"3 of 5"` it returns `"4 of 5"` where the claim (and the repository's own
test `test_decrement_session`) expects `"2 of 5"`, and on `"1 of 5"` it
returns `"2 of 5"` instead of the claimed floor `"1 of 5"`. -/
theorem claim_C4_behavior :
    decrement_session "3 of 5" = "4 of 5" ∧ decrement_session "3 of 5" ≠ "2 of 5" ∧
    decrement_session "1 of 5" = "2 of 5" ∧ decrement_session "1 of 5" ≠ "1 of 5" := by
  refine ⟨by decide, by decide, by decide, by decide⟩

/-- Claim C8: events whose start date does not parse are skipped, and the
result of `process_events` equals the result on the parseable sublist alone
(the embedded function is total: the source catches the only `ValueError`). -/
theorem claim_C8 (events : List CalEvent) (roster : List String) :
    process_events events roster =
      process_events (events.filter (fun e => (parse_date e.start).isSome)) roster := by
  simp only [process_events]
  have h : ∀ (l : List CalEvent) (init : List (String × (List CalEvent × Nat))),
      l.foldl (procStep roster) init =
        (l.filter (fun e => (parse_date e.start).isSome)).foldl (procStep roster) init := by
    intro l
    induction l with
    | nil => intro init; rfl
    | cons e rest ih =>
      intro init
      rcases hp : parse_date e.start with _ | d
      · have hskip : procStep roster init e = init := by simp [procStep, hp]
        simp [List.filter_cons, hp, hskip, ih]
      · simp [List.filter_cons, hp, ih]
  exact h events []

/-- Lookup at the head key of a bucket list. -/
theorem metLookup_cons_self (k : String) (v : List CalEvent × Nat)
    (l : List (String × (List CalEvent × Nat))) :
    metLookup ((k, v) :: l) k = v := by
  simp [metLookup, List.find?]

/-- Lookup skips a head with a different key. -/
theorem metLookup_cons_ne {k0 k : String} (v : List CalEvent × Nat)
    (l : List (String × (List CalEvent × Nat))) (h : ¬ k0 = k) :
    metLookup ((k0, v) :: l) k = metLookup l k := by
  simp [metLookup, List.find?, h]

/-- `addMet` updates exactly the bucket of the credited client. -/
theorem metLookup_addMet (met : List (String × (List CalEvent × Nat)))
    (c : String) (e : CalEvent) (k : String) :
    metLookup (addMet met c e) k =
      if k = c then ((metLookup met c).1 ++ [e], (metLookup met c).2 + 1)
      else metLookup met k := by
  induction met with
  | nil =>
    by_cases hk : k = c
    · subst hk
      simp [addMet, metLookup, List.find?]
    · have hck : ¬ c = k := fun h => hk h.symm
      simp [addMet, metLookup, List.find?, hk, hck]
  | cons p rest ih =>
    obtain ⟨k0, v⟩ := p
    by_cases h0 : k0 = c
    · subst h0
      have ha : addMet ((k0, v) :: rest) k0 e = (k0, (v.1 ++ [e], v.2 + 1)) :: rest := by
        simp [addMet]
      rw [ha]
      by_cases hk : k = k0
      · subst hk
        rw [metLookup_cons_self, if_pos rfl, metLookup_cons_self]
      · have hsym : ¬ k0 = k := fun h => hk h.symm
        rw [metLookup_cons_ne _ _ hsym, if_neg hk, metLookup_cons_ne _ _ hsym]
    · have ha : addMet ((k0, v) :: rest) c e = (k0, v) :: addMet rest c e := by
        simp [addMet, h0]
      rw [ha]
      by_cases hk : k = k0
      · subst hk
        rw [metLookup_cons_self, if_neg h0, metLookup_cons_self]
      · have hsym : ¬ k0 = k := fun h => hk h.symm
        rw [metLookup_cons_ne _ _ hsym, ih]
        by_cases hkc : k = c
        · rw [if_pos hkc, if_pos hkc, metLookup_cons_ne _ _ h0]
        · rw [if_neg hkc, if_neg hkc, metLookup_cons_ne _ _ hsym]

/-- Claim C7: an event is attributed to at most one roster client — the
first, in insertion order, for which a whitespace token of the client name
occurs case-insensitively in the title or description; clients after the
first match are never considered.  Part one characterizes the inner loop
with `break`; part two shows each client bucket collects exactly the events
whose first matching client is that client. -/
theorem claim_C7 :
    (∀ (roster : List String) (title desc c : String),
        firstMatchingClient roster title desc = some c ↔
          ∃ r1 r2, roster = r1 ++ c :: r2 ∧
            (∀ c2 ∈ r1, clientMatchesEvent c2 title desc = false) ∧
            clientMatchesEvent c title desc = true) ∧
    (∀ (events : List CalEvent) (roster : List String) (k : String),
        metLookup (process_events events roster) k =
          ((events.filter
              (fun e => (parse_date e.start).isSome &&
                decide (firstMatchingClient roster e.summary e.description = some k))),
            (events.filter
              (fun e => (parse_date e.start).isSome &&
                decide (firstMatchingClient roster e.summary e.description = some k))).length)) := by
  constructor
  · intro roster
    induction roster with
    | nil =>
      intro title desc c
      constructor
      · intro h
        exact absurd h (by simp [firstMatchingClient])
      · rintro ⟨r1, r2, habs, -, -⟩
        exact absurd habs (by cases r1 <;> simp)
    | cons x rest ih =>
      intro title desc c
      by_cases hx : clientMatchesEvent x title desc = true
      · simp only [firstMatchingClient, hx, if_true, Option.some.injEq]
        constructor
        · rintro rfl
          exact ⟨[], rest, rfl, by simp, hx⟩
        · rintro ⟨r1, r2, heq, hall, hc⟩
          cases r1 with
          | nil =>
            rw [List.nil_append] at heq
            exact (List.cons_eq_cons.mp heq).1
          | cons y r1x =>
            rw [List.cons_append] at heq
            obtain ⟨h1, h2⟩ := List.cons_eq_cons.mp heq
            have hy := hall y (by simp)
            rw [← h1] at hy
            exact absurd hx (by simp [hy])
      · have hx2 : clientMatchesEvent x title desc = false := by
          simpa using hx
        have hstep : firstMatchingClient (x :: rest) title desc =
            firstMatchingClient rest title desc := by
          simp [firstMatchingClient, hx2]
        rw [hstep, ih title desc c]
        constructor
        · rintro ⟨r1, r2, heq, hall, hc⟩
          refine ⟨x :: r1, r2, by rw [List.cons_append, heq], ?_, hc⟩
          intro c2 hm
          rcases List.mem_cons.mp hm with h | h
          · rw [h]
            exact hx2
          · exact hall c2 h
        · rintro ⟨r1, r2, heq, hall, hc⟩
          cases r1 with
          | nil =>
            rw [List.nil_append] at heq
            obtain ⟨h1, h2⟩ := List.cons_eq_cons.mp heq
            rw [← h1] at hc
            exact absurd hc (by simp [hx2])
          | cons y r1x =>
            rw [List.cons_append] at heq
            obtain ⟨h1, h2⟩ := List.cons_eq_cons.mp heq
            exact ⟨r1x, r2, h2, fun c2 hm => hall c2 (by simp [hm]), hc⟩
  · intro events roster k
    induction events using List.reverseRecOn with
    | nil => rfl
    | append_singleton es e ih =>
      simp only [process_events] at ih ⊢
      rw [List.foldl_append, List.foldl_cons, List.foldl_nil, List.filter_append]
      rcases hp : parse_date e.start with _ | d
      · have hstep : procStep roster (es.foldl (procStep roster) []) e =
            es.foldl (procStep roster) [] := by
          simp [procStep, hp]
        rw [hstep, ih]
        simp [List.filter_cons, hp]
      · rcases hf : firstMatchingClient roster e.summary e.description with _ | c
        · have hstep : procStep roster (es.foldl (procStep roster) []) e =
              es.foldl (procStep roster) [] := by
            simp [procStep, hp, hf]
          rw [hstep, ih]
          simp [List.filter_cons, hp, hf]
        · have hstep : procStep roster (es.foldl (procStep roster) []) e =
              addMet (es.foldl (procStep roster) []) c e := by
            simp [procStep, hp, hf]
          rw [hstep, metLookup_addMet]
          by_cases hk : k = c
          · subst hk
            rw [if_pos rfl, ih]
            simp [List.filter_cons, hp, hf]
          · have hck : ¬ c = k := fun h => hk h.symm
            rw [if_neg hk, ih]
            simp [List.filter_cons, hp, hf, hck]

/-- Claim C7 witness: with roster `["Al Smith", "Bob Jones"]` and an event
titled `"smith session"`, the event lands in the bucket of the first
matching client and nowhere else. -/
theorem claim_C7_witness :
    metLookup (process_events [eventW] rosterW) "Al Smith" = ([eventW], 1) ∧
    metLookup (process_events [eventW] rosterW) "Bob Jones" = ([], 0) := by
  constructor
  · exact (claim_C7.2 [eventW] rosterW "Al Smith").trans (by decide)
  · exact (claim_C7.2 [eventW] rosterW "Bob Jones").trans (by decide)

/-- A row shorter than two cells leaves the canonical-name state unchanged. -/
theorem canonStep_short (q : String) (st : List (String × String) × List (String × Nat))
    (r : List String) (h : ¬ 1 < r.length) : canonStep q st r = st := by
  simp [canonStep, h]

/-- Finding over a filtered list agrees with finding over the original when
the search predicate implies the filter. -/
theorem find?_filter_superset {α : Type} (p f : α → Bool) (l : List α)
    (h : ∀ x, p x = true → f x = true) :
    (l.filter f).find? p = l.find? p := by
  induction l with
  | nil => rfl
  | cons x xs ih =>
    by_cases hf : f x = true
    · rw [List.filter_cons_of_pos hf]
      by_cases hp : p x = true
      · rw [List.find?_cons_of_pos _ hp, List.find?_cons_of_pos _ hp]
      · have hp2 : ¬ p x = true := hp
        rw [List.find?_cons_of_neg _ hp2, List.find?_cons_of_neg _ hp2, ih]
    · have hp2 : ¬ p x = true := fun hp => hf (h x hp)
      rw [List.filter_cons_of_neg hf, List.find?_cons_of_neg _ hp2, ih]

/-- Claim C10: the core merge helpers are total on ragged snapshots.
Rows with fewer than two cells are invisible both to canonical-name
resolution and to the last-row scan; for the found row, a missing or empty
progress cell falls back to `"1 of 1"` (with no payment annotation) and a
missing or empty price cell falls back to `"???"`. -/
theorem claim_C10 :
    (∀ (q : String) (h : List String) (rest : List (List String)),
        get_canonical_name q (h :: rest) =
          get_canonical_name q (h :: rest.filter (fun r => decide (1 < r.length)))) ∧
    (∀ (q : String) (av : List (List String)),
        findLastClientData q av =
          findLastClientData q (av.filter (fun r => decide (1 < r.length)))) ∧
    (∀ (av : List (List String)) (s : UnmatchedSession) (r : List String),
        findLastClientData (get_canonical_name s.client_name av) av = some r →
        ((¬ 3 < r.length ∨ r.getD 3 "" = "") →
          (computeNewRow av s).getD 3 "" = "1 of 1" ∧ (computeNewRow av s).getD 5 "" = "") ∧
        ((¬ 4 < r.length ∨ r.getD 4 "" = "") →
          (computeNewRow av s).getD 4 "" = "???")) := by
  refine ⟨?_, ?_, ?_⟩
  · intro q h rest
    simp only [get_canonical_name, List.drop_one, List.tail_cons]
    have hfold : ∀ (l : List (List String)) (st : List (String × String) × List (String × Nat)),
        l.foldl (canonStep q) st =
          (l.filter (fun r => decide (1 < r.length))).foldl (canonStep q) st := by
      intro l
      induction l with
      | nil => intro st; rfl
      | cons r rest2 ih =>
        intro st
        by_cases hr : 1 < r.length
        · rw [List.filter_cons_of_pos (by simpa using hr), List.foldl_cons, List.foldl_cons, ih]
        · rw [List.filter_cons_of_neg (by simpa using hr), List.foldl_cons,
            canonStep_short q st r hr, ih]
    rw [hfold]
  · intro q av
    simp only [findLastClientData]
    rw [← List.filter_reverse]
    rw [find?_filter_superset]
    intro x hx
    simp only [Bool.and_eq_true, decide_eq_true_eq] at hx
    simpa using hx.1
  · intro av s r hfind
    constructor
    · intro hmiss
      have hcond : (decide (3 < r.length) && decide (r.getD 3 "" ≠ "")) = false := by
        rcases hmiss with h | h
        · simp [h]
        · simp only [List.getD, List.get?_eq_getElem?] at h
          simp [h]
      constructor
      · simp only [computeNewRow, hfind, hcond]
        simp
      · simp only [computeNewRow, hfind, hcond]
        simp
    · intro hmiss
      have hcond : (decide (4 < r.length) && decide (r.getD 4 "" ≠ "")) = false := by
        rcases hmiss with h | h
        · simp [h]
        · simp only [List.getD, List.get?_eq_getElem?] at h
          simp [h]
      simp only [computeNewRow, hfind, hcond]
      simp

/-- Claim C10 witness: on a snapshot with a one-cell row and a matched row
whose progress and price cells are empty, the emitted row uses the
`"1 of 1"`, empty-payment and `"???"` fallbacks. -/
theorem claim_C10_witness :
    (computeNewRow avRagged (UnmatchedSession.mk "Bob Jones" "10/07/2024")).getD 3 "" = "1 of 1" ∧
    (computeNewRow avRagged (UnmatchedSession.mk "Bob Jones" "10/07/2024")).getD 5 "" = "" ∧
    (computeNewRow avRagged (UnmatchedSession.mk "Bob Jones" "10/07/2024")).getD 4 "" = "???" := by
  have h := claim_C10.2.2 avRagged (UnmatchedSession.mk "Bob Jones" "10/07/2024")
      ["09/02/2024", "Bob Jones", "Individual", "", ""] (by decide)
  exact ⟨(h.1 (Or.inr (by decide))).1, (h.1 (Or.inr (by decide))).2, h.2 (Or.inr (by decide))⟩

/-- Claim C2: the row emitted for an unmatched session.  With no similar
ledger row the defaults are progress `"1 of 1"`, price `"???"`, status
`"NEW CLIENT"`.  With a most-recent similar row carrying a progress cell
`"c of t"` and a price cell, the emitted row carries the price forward,
increments the progress, and leaves the status tag empty; when the
increment does not complete the package the payment field is empty.
(The price hypothesis rules out the corner where `float(price)` raises while
the package completes, in which case the source also resets the progress.) -/
theorem claim_C2 :
    (∀ (av : List (List String)) (s : UnmatchedSession),
        findLastClientData (get_canonical_name s.client_name av) av = none →
        computeNewRow av s =
          [s.date, get_canonical_name s.client_name av, "Individual", "1 of 1", "???", "",
           "MONTHLY CALC??", "NEW CLIENT"]) ∧
    (∀ (av : List (List String)) (s : UnmatchedSession) (r : List String) (c t : Int),
        findLastClientData (get_canonical_name s.client_name av) av = some r →
        3 < r.length → r.getD 3 "" ≠ "" →
        parseProgress (r.getD 3 "") = some (c, t) →
        4 < r.length → r.getD 4 "" ≠ "" →
        (c + 1 ≥ t → r.getD 4 "" = "???" ∨
          (pyFloat10 (removeChar '$' (r.getD 4 ""))).isSome = true) →
        ∃ pay, (c + 1 < t → pay = "") ∧
          computeNewRow av s =
            [s.date, get_canonical_name s.client_name av, "Individual",
             toString (c + 1) ++ " of " ++ toString t, r.getD 4 "", pay,
             "MONTHLY CALC??", ""]) := by
  constructor
  · intro av s hfind
    simp only [computeNewRow, hfind]
  · intro av s r c t hfind h3 hp3 hparse h4 hp4 hfl
    have hcond4 : (decide (4 < r.length) && decide (r.getD 4 "" ≠ "")) = true := by
      simp only [Bool.and_eq_true, decide_eq_true_eq]
      exact ⟨h4, hp4⟩
    have hprice : (if (decide (4 < r.length) && decide (r.getD 4 "" ≠ "")) = true
        then r.getD 4 "" else "???") = r.getD 4 "" := by
      rw [hcond4]
      simp
    have hcond : (decide (3 < r.length) && decide (r.getD 3 "" ≠ "")) = true := by
      simp only [Bool.and_eq_true, decide_eq_true_eq]
      exact ⟨h3, hp3⟩
    simp only [computeNewRow, hfind, hcond, hprice, if_true, hparse]
    by_cases hdue : (decide (c + 1 ≥ t) && decide (r.getD 4 "" ≠ "???")) = true
    · have hge : c + 1 ≥ t := by
        rcases Bool.and_eq_true_iff.mp hdue with ⟨hg, -⟩
        exact of_decide_eq_true hg
      have hne : r.getD 4 "" ≠ "???" := by
        rcases Bool.and_eq_true_iff.mp hdue with ⟨-, hn⟩
        exact of_decide_eq_true hn
      rcases hfl hge with habs | hsome
      · exact absurd habs hne
      · rcases Option.isSome_iff_exists.mp hsome with ⟨price, hq⟩
        refine ⟨"DUE: $" ++ toString (Int.tdiv (price.1 * t) (price.2 : Int)), ?_, ?_⟩
        · intro hlt
          exact absurd hge (by omega)
        · simp only [hdue, if_true, hq]
    · have hdue2 : (decide (c + 1 ≥ t) && decide (r.getD 4 "" ≠ "???")) = false := by
        simpa using hdue
      refine ⟨"", fun _ => rfl, ?_⟩
      simp only [hdue2]
      simp

/-- Claim C2 witness: against a snapshot whose last `Bob Jones` row reads
`"2 of 10"` at `$50`, the merge emits `"3 of 10"`, carries `$50`, and leaves
the status empty; an unknown client gets the `NEW CLIENT` defaults. -/
theorem claim_C2_witness :
    computeNewRow avBob (UnmatchedSession.mk "Bob Jones" "10/07/2024") =
      ["10/07/2024", "Bob Jones", "Individual", "3 of 10", "$50", "", "MONTHLY CALC??", ""] ∧
    computeNewRow avBob (UnmatchedSession.mk "Zed Zed" "10/08/2024") =
      ["10/08/2024", "Zed Zed", "Individual", "1 of 1", "???", "", "MONTHLY CALC??",
       "NEW CLIENT"] := by
  constructor
  · obtain ⟨pay, hpay, hrow⟩ := claim_C2.2 avBob (UnmatchedSession.mk "Bob Jones" "10/07/2024")
      ["08/26/2024", "Bob Jones", "Individual", "2 of 10", "$50", "", "", ""] 2 10
      (by decide) (by decide) (by decide) (by decide) (by decide) (by decide)
      (fun h => absurd h (by decide))
    rw [hpay (by decide)] at hrow
    exact hrow.trans (by decide)
  · exact (claim_C2.1 avBob (UnmatchedSession.mk "Zed Zed" "10/08/2024") (by decide)).trans
      (by decide)

/-- Claim C5: for an existing client with progress `"c of t"` and a known
integer dollar price (`float` exact in this range), the payment annotation is
the non-empty `DUE` line carrying `p * t` exactly when the incremented
current reaches the total, and empty otherwise. -/
theorem claim_C5 (av : List (List String)) (s : UnmatchedSession) (r : List String)
    (c t p : Int)
    (hfind : findLastClientData (get_canonical_name s.client_name av) av = some r)
    (h3 : 3 < r.length) (hp3 : r.getD 3 "" ≠ "")
    (hparse : parseProgress (r.getD 3 "") = some (c, t))
    (h4 : 4 < r.length) (hp4 : r.getD 4 "" ≠ "") (hq3 : r.getD 4 "" ≠ "???")
    (hfloat : pyFloat10 (removeChar '$' (r.getD 4 "")) = some (p, 1)) :
    (c + 1 ≥ t →
      (computeNewRow av s).getD 5 "" = "DUE: $" ++ toString (p * t) ∧
      (computeNewRow av s).getD 5 "" ≠ "") ∧
    (c + 1 < t → (computeNewRow av s).getD 5 "" = "") := by
  have hcond4 : (decide (4 < r.length) && decide (r.getD 4 "" ≠ "")) = true := by
    simp only [Bool.and_eq_true, decide_eq_true_eq]
    exact ⟨h4, hp4⟩
  have hprice : (if (decide (4 < r.length) && decide (r.getD 4 "" ≠ "")) = true
      then r.getD 4 "" else "???") = r.getD 4 "" := by
    rw [hcond4]
    simp
  have hcond : (decide (3 < r.length) && decide (r.getD 3 "" ≠ "")) = true := by
    simp only [Bool.and_eq_true, decide_eq_true_eq]
    exact ⟨h3, hp3⟩
  constructor
  · intro hge
    have hdue : (decide (c + 1 ≥ t) && decide (r.getD 4 "" ≠ "???")) = true := by
      simp only [Bool.and_eq_true, decide_eq_true_eq]
      exact ⟨hge, hq3⟩
    have htr : Int.tdiv ((p, (1 : Nat)).1 * t) (((p, (1 : Nat)).2 : Nat) : Int) = p * t := by
      simp [Int.tdiv_one]
    constructor
    · simp only [computeNewRow, hfind, hcond, hprice, if_true, hparse, hdue, hfloat, htr]
      simp
    · simp only [computeNewRow, hfind, hcond, hprice, if_true, hparse, hdue, hfloat, htr]
      simp only [List.getD, List.get?_eq_getElem?]
      intro habs
      have : ("DUE: $" ++ toString (p * t)).data = "".data := by
        rw [← habs]
        simp
      simp at this
  · intro hlt
    have hdue : (decide (c + 1 ≥ t) && decide (r.getD 4 "" ≠ "???")) = false := by
      have : ¬ c + 1 ≥ t := by omega
      simp [this]
    simp only [computeNewRow, hfind, hcond, hprice, if_true, hparse, hdue]
    simp

/-- Claim C5 witness: a `"9 of 10"` row at `$50` completes the package, so
the emitted payment annotation is `DUE: $500` and non-empty. -/
theorem claim_C5_witness :
    (computeNewRow avDue (UnmatchedSession.mk "Bob Jones" "10/07/2024")).getD 5 "" =
      "DUE: $500" ∧
    (computeNewRow avDue (UnmatchedSession.mk "Bob Jones" "10/07/2024")).getD 5 "" ≠ "" := by
  have h := claim_C5 avDue (UnmatchedSession.mk "Bob Jones" "10/07/2024")
      ["09/01/2024", "Bob Jones", "Individual", "9 of 10", "$50", "", "", ""] 9 10 50
      (by decide) (by decide) (by decide) (by decide) (by decide) (by decide) (by decide)
      (by decide)
  have h2 := h.1 (by decide)
  exact ⟨h2.1.trans (by decide), h2.2⟩

/-- Membership in the windowed sales index is exactly existence of a
contributing snapshot row. -/
theorem buildSalesPairs_mem (cc dc : Nat) (ws we : PyDate) :
    ∀ (l : List (List String)) (pairs : List (String × PyDate)),
      l.foldr (salesStep cc dc ws we) (some []) = some pairs →
      ∀ (n : String) (d : PyDate),
        ((n, d) ∈ pairs ↔
          ∃ row ∈ l, max cc dc < row.length ∧ pyStrip (row.getD dc "") ≠ "" ∧
            parse_date (row.getD dc "") = some d ∧
            (dateLe ws d && dateLe d we) = true ∧
            pyLower (pyStrip (row.getD cc "")) = n) := by
  intro l
  induction l with
  | nil =>
    intro pairs hp n d
    simp only [List.foldr_nil, Option.some.injEq] at hp
    subst hp
    simp
  | cons row rest ih =>
    intro pairs hp n d
    rw [List.foldr_cons] at hp
    rcases hacc : rest.foldr (salesStep cc dc ws we) (some []) with _ | l0
    · rw [hacc] at hp
      exact absurd hp (by simp [salesStep])
    · rw [hacc] at hp
      have ihl := ih l0 hacc n d
      by_cases hg : (decide (max cc dc < row.length) && decide (pyStrip (row.getD dc "") ≠ "")) = true
      · rcases hpd : parse_date (row.getD dc "") with _ | d0
        · rw [show salesStep cc dc ws we row (some l0) = none from by
            simp only [salesStep, hg, if_true, hpd]] at hp
          cases hp
        · by_cases hw : (dateLe ws d0 && dateLe d0 we) = true
          · rw [show salesStep cc dc ws we row (some l0) =
                some ((pyLower (pyStrip (row.getD cc "")), d0) :: l0) from by
              simp only [salesStep, hg, if_true, hpd, hw]] at hp
            injection hp with hp2
            subst hp2
            constructor
            · intro hm
              rcases List.mem_cons.mp hm with hhd | htl
              · injection hhd with hn hd
                refine ⟨row, by simp, ?_, ?_, ?_, ?_, ?_⟩
                · exact of_decide_eq_true (Bool.and_eq_true_iff.mp hg).1
                · exact of_decide_eq_true (Bool.and_eq_true_iff.mp hg).2
                · rw [hpd, hd]
                · rw [← hd] at hw
                  exact hw
                · exact hn.symm
              · rcases ihl.mp htl with ⟨row2, hmem, hrest⟩
                exact ⟨row2, by simp [hmem], hrest⟩
            · rintro ⟨row2, hmem, hlen, hne, hpd2, hw2, hname⟩
              rcases List.mem_cons.mp hmem with rfl | hmem2
              · rw [hpd] at hpd2
                injection hpd2 with hdd
                exact List.mem_cons.mpr (Or.inl (by rw [← hname, hdd]))
              · exact List.mem_cons.mpr (Or.inr (ihl.mpr ⟨row2, hmem2, hlen, hne, hpd2, hw2, hname⟩))
          · have hw2 : (dateLe ws d0 && dateLe d0 we) = false := by
              simpa using hw
            rw [show salesStep cc dc ws we row (some l0) = some l0 from by
              simp only [salesStep, hg, if_true, hpd, hw2]
              simp] at hp
            injection hp with hp2
            subst hp2
            rw [ihl]
            constructor
            · rintro ⟨row2, hmem, hrest⟩
              exact ⟨row2, by simp [hmem], hrest⟩
            · rintro ⟨row2, hmem, hlen, hne, hpd2, hwd, hname⟩
              rcases List.mem_cons.mp hmem with rfl | hmem2
              · rw [hpd] at hpd2
                injection hpd2 with hdd
                rw [← hdd] at hwd
                exact absurd hwd (by simp [hw2])
              · exact ⟨row2, hmem2, hlen, hne, hpd2, hwd, hname⟩
      · have hg2 : (decide (max cc dc < row.length) && decide (pyStrip (row.getD dc "") ≠ "")) = false := by
          simpa using hg
        rw [show salesStep cc dc ws we row (some l0) = some l0 from by
          simp only [salesStep, hg2]
          simp] at hp
        injection hp with hp2
        subst hp2
        rw [ihl]
        constructor
        · rintro ⟨row2, hmem, hrest⟩
          exact ⟨row2, by simp [hmem], hrest⟩
        · rintro ⟨row2, hmem, hlen, hne, hpd2, hwd, hname⟩
          rcases List.mem_cons.mp hmem with rfl | hmem2
          · refine absurd ?_ hg
            simp only [Bool.and_eq_true, decide_eq_true_eq]
            exact ⟨hlen, hne⟩
          · exact ⟨row2, hmem2, hlen, hne, hpd2, hwd, hname⟩

/-- Claim C1: a session is marked `MATCH` exactly when the snapshot holds a
row whose trimmed, lowercased client name and parsed date equal the
session client and date inside the reconciliation window, and `NO MATCH`
otherwise. -/
theorem claim_C1 (sales_data : List (List String)) (cc dc : Nat) (ws we : PyDate)
    (pairs : List (String × PyDate)) (client : String) (d : PyDate)
    (hb : buildSalesPairs sales_data cc dc ws we = some pairs)
    (hw : (dateLe ws d && dateLe d we) = true) :
    (session_match_status client d pairs = "MATCH" ↔
      ∃ row ∈ sales_data.drop 1,
        max cc dc < row.length ∧ pyStrip (row.getD dc "") ≠ "" ∧
        parse_date (row.getD dc "") = some d ∧
        (dateLe ws d && dateLe d we) = true ∧
        pyLower (pyStrip (row.getD cc "")) = pyLower (pyStrip client)) ∧
    (session_match_status client d pairs = "MATCH" ∨
      session_match_status client d pairs = "NO MATCH") := by
  have hchar := buildSalesPairs_mem cc dc ws we (sales_data.drop 1) pairs hb
      (pyLower (pyStrip client)) d
  constructor
  · by_cases hmem : (pyLower (pyStrip client), d) ∈ pairs
    · rw [show session_match_status client d pairs = "MATCH" from by
        simp [session_match_status, hmem]]
      simp only [true_iff]
      exact hchar.mp hmem
    · rw [show session_match_status client d pairs = "NO MATCH" from by
        simp [session_match_status, hmem]]
      constructor
      · intro habs
        exact absurd habs (by decide)
      · intro hex
        exact absurd (hchar.mpr hex) hmem
  · by_cases hmem : (pyLower (pyStrip client), d) ∈ pairs
    · exact Or.inl (by simp [session_match_status, hmem])
    · exact Or.inr (by simp [session_match_status, hmem])

/-- Claim C1 witness: one snapshot row for Dale on 10/07/2024 inside the
week 10/07-10/13 makes the session `MATCH` (names compared trimmed and
case-insensitively). -/
theorem claim_C1_witness :
    buildSalesPairs salesW 1 0 (PyDate.mk 2024 10 7) (PyDate.mk 2024 10 13) =
      some [("dale scaiano", PyDate.mk 2024 10 7)] ∧
    session_match_status " DALE SCAIANO " (PyDate.mk 2024 10 7)
      [("dale scaiano", PyDate.mk 2024 10 7)] = "MATCH" := by
  refine ⟨by decide, ?_⟩
  have h := claim_C1 salesW 1 0 (PyDate.mk 2024 10 7) (PyDate.mk 2024 10 13)
      [("dale scaiano", PyDate.mk 2024 10 7)] " DALE SCAIANO " (PyDate.mk 2024 10 7)
      (by decide) (by decide)
  exact h.1.mpr ⟨["10/07/2024", "Dale Scaiano"], by decide, by decide, by decide, by decide,
    by decide, by decide⟩

/-- The forward last-row scan never drops below its accumulator (which stays
at most one past the scan index, as in every call site). -/
theorem lastRowAux_ge (l : List (List String)) :
    ∀ (i best : Nat), best ≤ i + 1 → best ≤ lastRowAux l i best := by
  induction l with
  | nil =>
    intro i best h
    exact Nat.le_refl best
  | cons row rest ih =>
    intro i best h
    simp only [lastRowAux]
    by_cases hr : row.any (fun cell => cell ≠ "") = true
    · rw [if_pos hr]
      calc best ≤ i + 1 := h
        _ ≤ lastRowAux rest (i + 1) (i + 1) := ih (i + 1) (i + 1) (by omega)
    · rw [if_neg hr]
      exact ih (i + 1) best (by omega)

/-- Every row with data bounds the last-row scan from below. -/
theorem lastRowAux_bound (l : List (List String)) :
    ∀ (i best k : Nat), k < l.length →
      (l.getD k []).any (fun cell => cell ≠ "") = true →
      i + k + 1 ≤ lastRowAux l i best := by
  induction l with
  | nil =>
    intro i best k hk _
    exact absurd hk (by simp)
  | cons row rest ih =>
    intro i best k hk hdata
    cases k with
    | zero =>
      have hr : row.any (fun cell => cell ≠ "") = true := by simpa using hdata
      simp only [lastRowAux, if_pos hr]
      have := lastRowAux_ge rest (i + 1) (i + 1) (by omega)
      omega
    | succ k2 =>
      have hdata2 : (rest.getD k2 []).any (fun cell => cell ≠ "") = true := by
        simpa using hdata
      have hk2 : k2 < rest.length := by simpa using hk
      simp only [lastRowAux]
      by_cases hr : row.any (fun cell => cell ≠ "") = true
      · rw [if_pos hr]
        have := ih (i + 1) (i + 1) k2 hk2 hdata2
        omega
      · rw [if_neg hr]
        have := ih (i + 1) best k2 hk2 hdata2
        omega

/-- Writing a block starting at 1-based row `start1` leaves every earlier
row of the grid unchanged. -/
theorem writeRowsAt_frame (grid : List (List String)) (start1 : Nat)
    (rows : List (List String)) (i : Nat) (hi : i + 1 < start1) (hg : i < grid.length) :
    (writeRowsAt grid start1 rows).getD i [] = grid.getD i [] := by
  simp only [writeRowsAt]
  have hib : i < start1 - 1 := by omega
  have htake : i < ((grid ++ List.replicate (start1 - 1 + rows.length - grid.length) []).take
      (start1 - 1)).length := by
    rw [List.length_take, List.length_append]
    omega
  have htr : i < ((grid ++ List.replicate (start1 - 1 + rows.length - grid.length) []).take
      (start1 - 1) ++ rows).length := by
    rw [List.length_append]
    omega
  rw [List.getD_eq_getElem?_getD, List.getD_eq_getElem?_getD]
  rw [List.getElem?_append_left htr]
  rw [List.getElem?_append_left htake]
  rw [List.getElem?_take_of_lt hib]
  rw [List.getElem?_append_left hg]

/-- Claim C9 (amended): the merge emits exactly one row per session in input
order; the block is written contiguously starting one past the last row with
data (`find_last_row_with_data` reports 1 for an empty sheet, so the block
then starts at row 2, not 1); capacity is grown to cover the block when
needed; and no earlier row position — in particular no row with data — is
overwritten. -/
theorem claim_C9_amended (unmatched : List UnmatchedSession)
    (av sv : List (List String)) (cap : Nat) :
    (add_unmatched_sessions unmatched av sv cap).1 = unmatched.map (computeNewRow av) ∧
    (add_unmatched_sessions unmatched av sv cap).2.1 = find_last_row_with_data sv + 1 ∧
    (∀ k, k < sv.length → (sv.getD k []).any (fun cell => cell ≠ "") = true →
      k + 1 < (add_unmatched_sessions unmatched av sv cap).2.1) ∧
    (unmatched ≠ [] →
      find_last_row_with_data sv + unmatched.length ≤
        (add_unmatched_sessions unmatched av sv cap).2.2) ∧
    (∀ i, i + 1 < (add_unmatched_sessions unmatched av sv cap).2.1 → i < sv.length →
      (writeRowsAt sv (add_unmatched_sessions unmatched av sv cap).2.1
          (add_unmatched_sessions unmatched av sv cap).1).getD i [] = sv.getD i []) ∧
    (sv = [] → (add_unmatched_sessions unmatched av sv cap).2.1 = 2) := by
  refine ⟨rfl, rfl, ?_, ?_, ?_, ?_⟩
  · intro k hk hdata
    have := lastRowAux_bound sv 0 1 k hk hdata
    simp only [add_unmatched_sessions, find_last_row_with_data]
    omega
  · intro hne
    simp only [add_unmatched_sessions]
    have hlen : (unmatched.map (computeNewRow av)).length = unmatched.length :=
      List.length_map _ _
    by_cases hc : unmatched.map (computeNewRow av) ≠ [] ∧
        cap < find_last_row_with_data sv + (unmatched.map (computeNewRow av)).length
    · rw [if_pos hc]
      omega
    · rw [if_neg hc]
      push_neg at hc
      rcases Classical.em (unmatched.map (computeNewRow av) = []) with hmap | hmap
      · exact absurd (List.map_eq_nil_iff.mp hmap) hne
      · have := hc hmap
        omega
  · intro i hi hg
    exact writeRowsAt_frame sv _ _ i hi hg
  · intro h
    subst h
    rfl

/-- Claim C9 counterexample: on an empty sheet the helper reports last row 1
and the block therefore starts at row 2, where the claim asserts position 1. -/
theorem claim_C9_counterexample :
    (add_unmatched_sessions [UnmatchedSession.mk "Bob" "10/07/2024"] [] [] 0).2.1 = 2 ∧
    ¬ (add_unmatched_sessions [UnmatchedSession.mk "Bob" "10/07/2024"] [] [] 0).2.1 = 1 := by
  exact ⟨by decide, by decide⟩

/-- Claim C9 witness: one session appended over a sheet whose first row has
data: the block starts at row 2, capacity is grown past the block, and row 1
is untouched. -/
theorem claim_C9_witness :
    (add_unmatched_sessions [UnmatchedSession.mk "Bob" "10/07/2024"] [] [["a"], [""]] 1).2.1 = 2 ∧
    find_last_row_with_data [["a"], [""]] +
        [UnmatchedSession.mk "Bob" "10/07/2024"].length ≤
      (add_unmatched_sessions [UnmatchedSession.mk "Bob" "10/07/2024"] [] [["a"], [""]] 1).2.2 ∧
    (writeRowsAt [["a"], [""]]
        (add_unmatched_sessions [UnmatchedSession.mk "Bob" "10/07/2024"] [] [["a"], [""]] 1).2.1
        (add_unmatched_sessions [UnmatchedSession.mk "Bob" "10/07/2024"] [] [["a"], [""]] 1).1).getD
        0 [] =
      [["a"], [""]].getD 0 [] := by
  have h := claim_C9_amended [UnmatchedSession.mk "Bob" "10/07/2024"] [] [["a"], [""]] 1
  refine ⟨?_, ?_, ?_⟩
  · exact h.2.1.trans (by decide)
  · exact h.2.2.2.1 (by decide)
  · exact h.2.2.2.2.1 0 (by decide) (by decide)

/-- Appending does not change a successful find. -/
theorem find?_append_some {α : Type} (p : α → Bool) (l1 l2 : List α) (a : α)
    (h : l1.find? p = some a) : (l1 ++ l2).find? p = some a := by
  induction l1 with
  | nil => cases h
  | cons x xs ih =>
    by_cases hx : p x = true
    · rw [List.find?_cons_of_pos _ hx] at h
      rw [List.cons_append, List.find?_cons_of_pos _ hx]
      exact h
    · rw [List.find?_cons_of_neg _ hx] at h
      rw [List.cons_append, List.find?_cons_of_neg _ hx]
      exact ih h

/-- A failed find continues into the appended part. -/
theorem find?_append_none {α : Type} (p : α → Bool) (l1 l2 : List α)
    (h : l1.find? p = none) : (l1 ++ l2).find? p = l2.find? p := by
  induction l1 with
  | nil => rfl
  | cons x xs ih =>
    by_cases hx : p x = true
    · rw [List.find?_cons_of_pos _ hx] at h
      cases h
    · rw [List.find?_cons_of_neg _ hx] at h
      rw [List.cons_append, List.find?_cons_of_neg _ hx]
      exact ih h

/-- `firstOccs` on a snoc: a fresh element is appended, a seen one ignored. -/
theorem firstOccs_snoc (l : List String) (x : String) :
    firstOccs (l ++ [x]) = if x ∈ l then firstOccs l else firstOccs l ++ [x] := by
  induction l with
  | nil => simp [firstOccs]
  | cons y ys ih =>
    have hcons : (y :: ys) ++ [x] = y :: (ys ++ [x]) := rfl
    have h1 : firstOccs (y :: (ys ++ [x])) =
        y :: (firstOccs (ys ++ [x])).filter (fun z => z ≠ y) := rfl
    have h2 : firstOccs (y :: ys) = y :: (firstOccs ys).filter (fun z => z ≠ y) := rfl
    rw [hcons, h1, ih, h2]
    by_cases hx : x ∈ ys
    · rw [if_pos hx, if_pos (by simp [hx])]
    · rw [if_neg hx]
      by_cases hxy : x = y
      · subst hxy
        rw [if_pos (by simp)]
        rw [List.filter_append]
        simp
      · rw [if_neg (by simp [hxy, hx])]
        rw [List.filter_append]
        simp [hxy]


/-- `firstOccs` keeps exactly the elements of the list. -/
theorem mem_firstOccs (a : String) : ∀ l : List String, a ∈ firstOccs l ↔ a ∈ l := by
  intro l
  induction l with
  | nil => simp [firstOccs]
  | cons x xs ih =>
    simp only [firstOccs, List.mem_cons]
    constructor
    · rintro (rfl | h)
      · exact Or.inl rfl
      · exact Or.inr (ih.mp (List.mem_of_mem_filter h))
    · rintro (rfl | h)
      · exact Or.inl rfl
      · by_cases hax : a = x
        · exact Or.inl hax
        · exact Or.inr (List.mem_filter.mpr ⟨ih.mpr h, by simp [hax]⟩)

/-- `firstOccs` has no duplicates. -/
theorem nodup_firstOccs : ∀ l : List String, (firstOccs l).Nodup := by
  intro l
  induction l with
  | nil => simp [firstOccs]
  | cons x xs ih =>
    simp only [firstOccs]
    refine List.nodup_cons.mpr ⟨?_, ih.filter _⟩
    intro hmem
    have := (List.mem_filter.mp hmem).2
    simp at this

/-- The first occurrence index ignores what comes after it. -/
theorem firstIdx_append_left (k : String) :
    ∀ (l l2 : List String), k ∈ l → firstIdx (l ++ l2) k = firstIdx l k := by
  intro l
  induction l with
  | nil =>
    intro l2 h
    cases h
  | cons x xs ih =>
    intro l2 h
    by_cases hx : x = k
    · simp [firstIdx, hx]
    · rcases List.mem_cons.mp h with h1 | h2
      · exact absurd h1.symm hx
      · simp [firstIdx, hx, ih l2 h2]

/-- A present element has its first occurrence before the end. -/
theorem firstIdx_lt_length (k : String) :
    ∀ l : List String, k ∈ l → firstIdx l k < l.length := by
  intro l
  induction l with
  | nil =>
    intro h
    cases h
  | cons x xs ih =>
    intro h
    by_cases hx : x = k
    · simp [firstIdx, hx]
    · rcases List.mem_cons.mp h with h1 | h2
      · exact absurd h1.symm hx
      · simp only [firstIdx, if_neg hx, List.length_cons]
        exact Nat.succ_lt_succ (ih h2)

/-- A fresh element appended at the end first occurs at the old length. -/
theorem firstIdx_append_fresh (k : String) :
    ∀ l : List String, k ∉ l → firstIdx (l ++ [k]) k = l.length := by
  intro l
  induction l with
  | nil =>
    intro _
    simp [firstIdx]
  | cons x xs ih =>
    intro h
    have hx : ¬ x = k := fun e => h (by simp [e])
    have hcons : (x :: xs) ++ [k] = x :: (xs ++ [k]) := rfl
    have hfi : firstIdx (x :: (xs ++ [k])) k =
        if x = k then 0 else firstIdx (xs ++ [k]) k + 1 := rfl
    rw [hcons, hfi, if_neg hx, ih (fun hm => h (by simp [hm]))]
    rfl

/-- `firstOccs` lists keys in strictly increasing first-occurrence order. -/
theorem firstOccs_pairwise :
    ∀ l : List String,
      List.Pairwise (fun a b => firstIdx l a < firstIdx l b) (firstOccs l) := by
  intro l
  induction l with
  | nil => simp [firstOccs]
  | cons x xs ih =>
    simp only [firstOccs]
    refine List.Pairwise.cons ?_ ?_
    · intro y hy
      have hyx : ¬ y = x := by
        have := (List.mem_filter.mp hy).2
        simpa using this
      have hxy : ¬ x = y := fun e => hyx e.symm
      have e1 : firstIdx (x :: xs) x = 0 := by simp [firstIdx]
      have e2 : firstIdx (x :: xs) y = firstIdx xs y + 1 := by simp [firstIdx, hxy]
      rw [e1, e2]
      omega
    · have hsub : List.Pairwise (fun a b => firstIdx xs a < firstIdx xs b)
          ((firstOccs xs).filter (fun y => y ≠ x)) :=
        ih.sublist (List.filter_sublist _)
      refine hsub.imp_of_mem ?_
      intro a b ha hb hrel
      have hax : ¬ x = a := by
        have h2 : a ≠ x := by simpa using (List.mem_filter.mp ha).2
        exact fun e => h2 e.symm
      have hbx : ¬ x = b := by
        have h2 : b ≠ x := by simpa using (List.mem_filter.mp hb).2
        exact fun e => h2 e.symm
      have e1 : firstIdx (x :: xs) a = firstIdx xs a + 1 := by simp [firstIdx, hax]
      have e2 : firstIdx (x :: xs) b = firstIdx xs b + 1 := by simp [firstIdx, hbx]
      rw [e1, e2]
      omega

/-- Occurrence count over a snoc. -/
theorem countEq_snoc (l : List String) (x k : String) :
    countEq (l ++ [x]) k = countEq l k + (if x = k then 1 else 0) := by
  simp only [countEq, List.filter_append]
  by_cases h : x = k
  · rw [if_pos h]
    simp [h]
  · rw [if_neg h]
    simp [h]

/-- Count lookup at the head key. -/
theorem countOf_cons_self (k : String) (c : Nat) (m : List (String × Nat)) :
    countOf ((k, c) :: m) k = c := by
  simp [countOf, List.find?]

/-- Count lookup skips a different head key. -/
theorem countOf_cons_ne {k0 k : String} (c : Nat) (m : List (String × Nat))
    (h : ¬ k0 = k) : countOf ((k0, c) :: m) k = countOf m k := by
  simp [countOf, List.find?, h]

/-- `bump` increments exactly the bumped key. -/
theorem countOf_bump (m : List (String × Nat)) (k k2 : String) :
    countOf (bump m k) k2 = countOf m k2 + (if k = k2 then 1 else 0) := by
  induction m with
  | nil =>
    by_cases h : k = k2
    · subst h
      simp [bump, countOf, List.find?]
    · have h2 : ¬ k2 = k := fun e => h e.symm
      simp [bump, countOf, List.find?, h, h2]
  | cons p rest ih =>
    obtain ⟨k0, c⟩ := p
    by_cases h0 : k0 = k
    · subst h0
      have hb : bump ((k0, c) :: rest) k0 = (k0, c + 1) :: rest := by
        simp [bump]
      rw [hb]
      by_cases h2 : k0 = k2
      · subst h2
        rw [countOf_cons_self, countOf_cons_self, if_pos rfl]
      · rw [countOf_cons_ne _ _ h2, countOf_cons_ne _ _ h2, if_neg h2]
        omega
    · have hb : bump ((k0, c) :: rest) k = (k0, c) :: bump rest k := by
        simp [bump, h0]
      rw [hb]
      by_cases h2 : k0 = k2
      · subst h2
        rw [countOf_cons_self, countOf_cons_self]
        rw [if_neg (fun e : k = k0 => h0 e.symm)]
        omega
      · rw [countOf_cons_ne _ _ h2, countOf_cons_ne _ _ h2, ih]

/-- `bump` appends a fresh key at the end and keeps the key order. -/
theorem bump_keys (m : List (String × Nat)) (k : String) :
    (bump m k).map Prod.fst =
      if k ∈ m.map Prod.fst then m.map Prod.fst else m.map Prod.fst ++ [k] := by
  induction m with
  | nil => simp [bump]
  | cons p rest ih =>
    obtain ⟨k0, c⟩ := p
    by_cases h0 : k0 = k
    · subst h0
      have hb : bump ((k0, c) :: rest) k0 = (k0, c + 1) :: rest := by
        simp [bump]
      rw [hb]
      simp
    · have hb : bump ((k0, c) :: rest) k = (k0, c) :: bump rest k := by
        simp [bump, h0]
      rw [hb]
      simp only [List.map_cons, ih]
      by_cases hk : k ∈ rest.map Prod.fst
      · rw [if_pos hk, if_pos (by simp [hk])]
      · have hkk0 : ¬ k = k0 := fun e => h0 e.symm
        rw [if_neg hk, if_neg (by simp [hk, hkk0])]
        simp

/-- The strict-maximum fold keeps at least the seed count. -/
theorem foldl_pickMax_ge :
    ∀ (l : List (String × Nat)) (best : String × Nat),
      best.2 ≤ (l.foldl pickMax best).2 := by
  intro l
  induction l with
  | nil =>
    intro best
    exact Nat.le_refl _
  | cons p rest ih =>
    intro best
    rw [List.foldl_cons]
    by_cases hgt : p.2 > best.2
    · have hpm : pickMax best p = p := by simp [pickMax, hgt]
      rw [hpm]
      have := ih p
      omega
    · have hpm : pickMax best p = best := by simp [pickMax, hgt]
      rw [hpm]
      exact ih best

/-- The strict-maximum fold result splits its input: everything before it is
strictly smaller, everything after it is no larger. -/
theorem foldl_pickMax_split :
    ∀ (l : List (String × Nat)) (best : String × Nat),
      ∃ m1 m2, best :: l = m1 ++ (l.foldl pickMax best) :: m2 ∧
        (∀ p ∈ m1, p.2 < (l.foldl pickMax best).2) ∧
        (∀ p ∈ m2, p.2 ≤ (l.foldl pickMax best).2) := by
  intro l
  induction l with
  | nil =>
    intro best
    exact ⟨[], [], rfl, by simp, by simp⟩
  | cons p rest ih =>
    intro best
    rw [List.foldl_cons]
    by_cases hgt : p.2 > best.2
    · have hpm : pickMax best p = p := by simp [pickMax, hgt]
      rw [hpm]
      obtain ⟨m1, m2, heq, h1, h2⟩ := ih p
      refine ⟨best :: m1, m2, ?_, ?_, h2⟩
      · rw [List.cons_append, ← heq]
      · intro x hx
        rcases List.mem_cons.mp hx with rfl | hx2
        · have := foldl_pickMax_ge rest p
          omega
        · exact h1 x hx2
    · have hpm : pickMax best p = best := by simp [pickMax, hgt]
      rw [hpm]
      obtain ⟨m1, m2, heq, h1, h2⟩ := ih best
      cases m1 with
      | nil =>
        rw [List.nil_append] at heq
        obtain ⟨h3, h4⟩ := List.cons_eq_cons.mp heq
        refine ⟨[], p :: m2, ?_, by simp, ?_⟩
        · rw [List.nil_append, ← h3, ← h4]
        · intro x hx
          rcases List.mem_cons.mp hx with rfl | hx2
          · rw [← h3]
            omega
          · exact h2 x hx2
      | cons b m1x =>
        rw [List.cons_append] at heq
        obtain ⟨h3, h4⟩ := List.cons_eq_cons.mp heq
        refine ⟨best :: p :: m1x, m2, ?_, ?_, h2⟩
        · rw [List.cons_append, List.cons_append, ← h4]
        · intro x hx
          have hbr : best.2 < (rest.foldl pickMax best).2 := by
            have hb := h1 b (by simp)
            rw [← h3] at hb
            exact hb
          rcases List.mem_cons.mp hx with rfl | hx2
          · exact hbr
          · rcases List.mem_cons.mp hx2 with rfl | hx3
            · omega
            · exact h1 x (by simp [hx3])

/-- `mostCommonKey` yields the first key of maximal count: the entry list
splits with strictly smaller counts before it and no larger counts after. -/
theorem mostCommonKey_split (m : List (String × Nat)) (k : String)
    (h : mostCommonKey m = some k) :
    ∃ c m1 m2, m = m1 ++ (k, c) :: m2 ∧
      (∀ p ∈ m1, p.2 < c) ∧ (∀ p ∈ m2, p.2 ≤ c) := by
  cases m with
  | nil => cases h
  | cons p rest =>
    simp only [mostCommonKey, Option.some.injEq] at h
    obtain ⟨m1, m2, heq, h1, h2⟩ := foldl_pickMax_split rest p
    refine ⟨(rest.foldl pickMax p).2, m1, m2, ?_, h1, h2⟩
    have hpair : (k, (rest.foldl pickMax p).2) = rest.foldl pickMax p := by
      rw [← h]
    rw [hpair]
    exact heq

/-- In a key-distinct counter, the stored pair determines the lookup. -/
theorem countOf_eq_of_mem :
    ∀ (m : List (String × Nat)) (k : String) (c : Nat),
      (m.map Prod.fst).Nodup → (k, c) ∈ m → countOf m k = c := by
  intro m
  induction m with
  | nil =>
    intro k c _ hm
    cases hm
  | cons p rest ih =>
    intro k c hnd hm
    obtain ⟨k0, c0⟩ := p
    rcases List.mem_cons.mp hm with heq | hmem
    · cases heq
      exact countOf_cons_self k c rest
    · have hk : k ∈ rest.map Prod.fst :=
        List.mem_map.mpr ⟨(k, c), hmem, rfl⟩
      have hk0 : k0 ∉ rest.map Prod.fst := (List.nodup_cons.mp hnd).1
      have hne : ¬ k0 = k := fun e => hk0 (e ▸ hk)
      rw [countOf_cons_ne _ _ hne]
      exact ih k c (List.nodup_cons.mp hnd).2 hmem

/-- The canonical-name row loop factors through the variant list: skipped
rows contribute nothing, and every counted row acts through `variantStep`. -/
theorem canon_fold_factor (q : String) :
    ∀ (rows : List (List String)) (st : List (String × String) × List (String × Nat)),
      rows.foldl (canonStep q) st = (rowVariants q rows).foldl variantStep st := by
  intro rows
  induction rows with
  | nil =>
    intro st
    rfl
  | cons row rest ih =>
    intro st
    rw [List.foldl_cons]
    by_cases h1 : 1 < row.length
    · by_cases h2 : similar (pyStrip (row.getD 1 "")) q = true
      · have hp : (decide (1 < row.length) && similar (pyStrip (row.getD 1 "")) q) = true := by
          rw [h2]
          simp [h1]
        have hrv : rowVariants q (row :: rest) =
            pyStrip (row.getD 1 "") :: rowVariants q rest := by
          simp only [rowVariants, List.filter_cons, hp, if_true, List.map_cons]
        rw [hrv, List.foldl_cons, ← ih]
        have hstep : canonStep q st row = variantStep st (pyStrip (row.getD 1 "")) := by
          simp only [canonStep, variantStep, h2, if_pos h1, if_true]
        rw [hstep]
      · have h2f : similar (pyStrip (row.getD 1 "")) q = false := by
          simpa using h2
        have hp2 : (decide (1 < row.length) && similar (pyStrip (row.getD 1 "")) q) = false := by
          rw [h2f]
          simp
        have hrv : rowVariants q (row :: rest) = rowVariants q rest := by
          simp only [rowVariants, List.filter_cons, hp2]
          simp
        have hstep : canonStep q st row = st := by
          simp only [canonStep, if_pos h1, h2f]
          simp
        rw [hrv, hstep, ih]
    · have hp3 : (decide (1 < row.length) && similar (pyStrip (row.getD 1 "")) q) = false := by
        simp [h1]
      have hrv : rowVariants q (row :: rest) = rowVariants q rest := by
        simp only [rowVariants, List.filter_cons, hp3]
        simp
      rw [hrv, canonStep_short q st row h1, ih]

/-- Counts of the canonical-name state: the counter tallies the lowercased
variants seen so far. -/
theorem variantFold_counts :
    ∀ (vs : List String) (k : String),
      countOf (vs.foldl variantStep ([], [])).2 k = countEq (vs.map pyLower) k := by
  intro vs
  induction vs using List.reverseRecOn with
  | nil =>
    intro k
    rfl
  | append_singleton ws w ih =>
    intro k
    rw [List.foldl_append, List.foldl_cons, List.foldl_nil]
    have hsnd : (variantStep (ws.foldl variantStep ([], [])) w).2 =
        bump (ws.foldl variantStep ([], [])).2 (pyLower w) := rfl
    rw [hsnd, countOf_bump, ih, List.map_append, List.map_cons, List.map_nil,
      countEq_snoc]

/-- Keys of the canonical-name counter: the lowercased variants in
first-occurrence order. -/
theorem variantFold_keys :
    ∀ vs : List String,
      (vs.foldl variantStep ([], [])).2.map Prod.fst = firstOccs (vs.map pyLower) := by
  intro vs
  induction vs using List.reverseRecOn with
  | nil => rfl
  | append_singleton ws w ih =>
    rw [List.foldl_append, List.foldl_cons, List.foldl_nil]
    have hsnd : (variantStep (ws.foldl variantStep ([], [])) w).2 =
        bump (ws.foldl variantStep ([], [])).2 (pyLower w) := rfl
    rw [hsnd, bump_keys, ih, List.map_append, List.map_cons, List.map_nil,
      firstOccs_snoc]
    by_cases hk : pyLower w ∈ ws.map pyLower
    · rw [if_pos ((mem_firstOccs _ _).mpr hk), if_pos hk]
    · rw [if_neg (fun hm => hk ((mem_firstOccs _ _).mp hm)), if_neg hk]

/-- The variants dictionary of the canonical-name state stores, per
case-insensitive key, the first variant spelled with that key. -/
theorem variantFold_variants :
    ∀ (vs : List String) (k : String),
      (vs.foldl variantStep ([], [])).1.find? (fun p => p.1 = k) =
        (vs.find? (fun w => pyLower w = k)).map (fun w => (k, w)) := by
  intro vs
  induction vs using List.reverseRecOn with
  | nil =>
    intro k
    rfl
  | append_singleton ws w ih =>
    intro k
    rw [List.foldl_append, List.foldl_cons, List.foldl_nil]
    have hfst : (variantStep (ws.foldl variantStep ([], [])) w).1 =
        if ((ws.foldl variantStep ([], [])).1.find?
              (fun p => p.1 = pyLower w)).isSome then
          (ws.foldl variantStep ([], [])).1
        else (ws.foldl variantStep ([], [])).1 ++ [(pyLower w, w)] := rfl
    rw [hfst]
    by_cases hseen : ((ws.foldl variantStep ([], [])).1.find?
        (fun p => p.1 = pyLower w)).isSome = true
    · rw [if_pos hseen, ih k]
      rw [ih (pyLower w)] at hseen
      rcases hfw : ws.find? (fun w2 => pyLower w2 = pyLower w) with _ | w0
      · rw [hfw] at hseen
        simp at hseen
      · rcases hfk : ws.find? (fun w2 => pyLower w2 = k) with _ | wk
        · rw [find?_append_none _ _ _ hfk]
          rw [List.find?_cons, List.find?_nil]
          by_cases hwk : pyLower w = k
          · rw [← hwk] at hfk
            rw [hfw] at hfk
            cases hfk
          · simp [hwk]
        · rw [find?_append_some _ _ _ _ hfk]
    · rw [if_neg hseen]
      rw [ih (pyLower w)] at hseen
      have hnone : ws.find? (fun w2 => pyLower w2 = pyLower w) = none := by
        rcases hfw : ws.find? (fun w2 => pyLower w2 = pyLower w) with _ | w0
        · rfl
        · rw [hfw] at hseen
          simp at hseen
      rcases hfk : ws.find? (fun w2 => pyLower w2 = k) with _ | wk
      · rw [find?_append_none _ _ _ hfk]
        have hl : (ws.foldl variantStep ([], [])).1.find? (fun p => p.1 = k) = none := by
          rw [ih k, hfk]
          rfl
        rw [find?_append_none _ _ _ hl]
        rw [List.find?_cons, List.find?_nil, List.find?_cons, List.find?_nil]
        by_cases hwk : pyLower w = k
        · subst hwk
          simp
        · simp [hwk]
      · have hsome := find?_append_some _ ws [w] wk hfk
        rw [hsome]
        have hl := ih k
        rw [hfk] at hl
        have := find?_append_some (fun p => (p.1 = k : Bool))
            (ws.foldl variantStep ([], [])).1 [(pyLower w, w)] (k, wk) hl
        rw [this]
        rfl

/-- Claim C6: canonical-name resolution returns the query unchanged when no
historical entry is similar; otherwise it returns a similar variant `r` that
is the first occurrence of its case-insensitive spelling, whose spelling has
maximal case-insensitive count, with ties resolved toward the spelling seen
first. -/
theorem claim_C6 (q : String) (av : List (List String)) :
    (variantsOf q av = [] → get_canonical_name q av = q) ∧
    (variantsOf q av ≠ [] →
      ∃ r, get_canonical_name q av = r ∧
        (variantsOf q av).find? (fun w => pyLower w = pyLower r) = some r ∧
        (∀ w ∈ variantsOf q av,
          countEq ((variantsOf q av).map pyLower) (pyLower w) ≤
            countEq ((variantsOf q av).map pyLower) (pyLower r)) ∧
        (∀ w ∈ variantsOf q av,
          countEq ((variantsOf q av).map pyLower) (pyLower w) =
            countEq ((variantsOf q av).map pyLower) (pyLower r) →
          firstIdx ((variantsOf q av).map pyLower) (pyLower r) ≤
            firstIdx ((variantsOf q av).map pyLower) (pyLower w))) := by
  have hfold : (av.drop 1).foldl (canonStep q) ([], []) =
      (variantsOf q av).foldl variantStep ([], []) := by
    have h := canon_fold_factor q (av.drop 1) ([], [])
    simpa [variantsOf] using h
  constructor
  · intro hnil
    simp only [get_canonical_name, hfold, hnil, List.foldl_nil]
    rfl
  · intro hne
    have hkeys := variantFold_keys (variantsOf q av)
    have hlp : (variantsOf q av).map pyLower ≠ [] := by
      intro h
      exact hne (List.map_eq_nil_iff.mp h)
    have hkeysne : ((variantsOf q av).foldl variantStep ([], [])).2 ≠ [] := by
      intro h
      rw [h] at hkeys
      cases hl : (variantsOf q av).map pyLower with
      | nil => exact hlp hl
      | cons x xs =>
        rw [hl] at hkeys
        have : firstOccs (x :: xs) = x :: (firstOccs xs).filter (fun y => y ≠ x) := rfl
        rw [this] at hkeys
        cases hkeys
    rcases hmc : mostCommonKey ((variantsOf q av).foldl variantStep ([], [])).2 with _ | k
    · exfalso
      cases hm : ((variantsOf q av).foldl variantStep ([], [])).2 with
      | nil => exact hkeysne hm
      | cons p rest =>
        rw [hm] at hmc
        exact absurd hmc (by simp [mostCommonKey])
    · obtain ⟨c, m1, m2, hsplit, hmax1, hmax2⟩ := mostCommonKey_split _ k hmc
      have hkmem : k ∈ ((variantsOf q av).foldl variantStep ([], [])).2.map Prod.fst := by
        rw [hsplit]
        simp
      have hkin : k ∈ (variantsOf q av).map pyLower :=
        (mem_firstOccs _ _).mp (hkeys ▸ hkmem)
      have hfindsome : ((variantsOf q av).find? (fun w => pyLower w = k)).isSome = true := by
        rw [List.find?_isSome]
        rcases List.mem_map.mp hkin with ⟨w, hw, hwk⟩
        exact ⟨w, hw, by simp [hwk]⟩
      rcases hr : (variantsOf q av).find? (fun w => pyLower w = k) with _ | r
      · rw [hr] at hfindsome
        cases hfindsome
      · have hv := variantFold_variants (variantsOf q av) k
        rw [hr] at hv
        have hgcn : get_canonical_name q av = r := by
          simp only [get_canonical_name, hfold, hmc, hv]
          rfl
        have hrk : pyLower r = k := by
          have := List.find?_some hr
          simpa using this
        have hrmem : r ∈ variantsOf q av := List.mem_of_find?_eq_some hr
        have hnodup : ((((variantsOf q av).foldl variantStep ([], [])).2).map Prod.fst).Nodup := by
          rw [hkeys]
          exact nodup_firstOccs _
        have hckc : countEq ((variantsOf q av).map pyLower) k = c := by
          rw [← variantFold_counts (variantsOf q av) k]
          exact countOf_eq_of_mem _ k c hnodup (by rw [hsplit]; simp)
      /- entry lookup for an arbitrary variant -/
        have hentry : ∀ w, w ∈ variantsOf q av →
            ∃ c2, (pyLower w, c2) ∈ ((variantsOf q av).foldl variantStep ([], [])).2 ∧
              countEq ((variantsOf q av).map pyLower) (pyLower w) = c2 := by
          intro w hw
          have hwin : pyLower w ∈ (variantsOf q av).map pyLower :=
            List.mem_map_of_mem _ hw
          have hwkeys : pyLower w ∈
              (((variantsOf q av).foldl variantStep ([], [])).2).map Prod.fst := by
            rw [hkeys]
            exact (mem_firstOccs _ _).mpr hwin
          rcases List.mem_map.mp hwkeys with ⟨p, hpmem, hpfst⟩
          obtain ⟨k2, c2⟩ := p
          have hk2 : k2 = pyLower w := hpfst
          subst hk2
          refine ⟨c2, hpmem, ?_⟩
          rw [← variantFold_counts (variantsOf q av) (pyLower w)]
          exact countOf_eq_of_mem _ _ c2 hnodup hpmem
        refine ⟨r, hgcn, by rw [hrk]; exact hr, ?_, ?_⟩
        · intro w hw
          obtain ⟨c2, hpmem, hc2⟩ := hentry w hw
          rw [hc2, hrk, hckc]
          rw [hsplit] at hpmem
          rcases List.mem_append.mp hpmem with h1 | h2
          · exact Nat.le_of_lt (hmax1 _ h1)
          · rcases List.mem_cons.mp h2 with heq | h3
            · cases heq
              exact Nat.le_refl _
            · exact hmax2 _ h3
        · intro w hw hcnt
          by_cases hwk : pyLower w = k
          · rw [hrk, hwk]
          · obtain ⟨c2, hpmem, hc2⟩ := hentry w hw
            have hc2c : c2 = c := by
              rw [← hc2, hcnt, hrk, hckc]
            subst hc2c
            rw [hsplit] at hpmem
            have hm2 : (pyLower w, c2) ∈ m2 := by
              rcases List.mem_append.mp hpmem with h1 | h2
              · exact absurd (hmax1 _ h1) (by omega)
              · rcases List.mem_cons.mp h2 with heq | h3
                · exfalso
                  apply hwk
                  have := congrArg Prod.fst heq
                  simpa using this
                · exact h3
            have hwm2 : pyLower w ∈ m2.map Prod.fst :=
              List.mem_map_of_mem _ hm2
            have hpw : List.Pairwise
                (fun a b => firstIdx ((variantsOf q av).map pyLower) a <
                  firstIdx ((variantsOf q av).map pyLower) b)
                ((((variantsOf q av).foldl variantStep ([], [])).2).map Prod.fst) := by
              rw [hkeys]
              exact firstOccs_pairwise _
            rw [hsplit, List.map_append, List.map_cons] at hpw
            have hrel := (List.pairwise_cons.mp (List.pairwise_append.mp hpw).2.1).1
            rw [hrk]
            exact Nat.le_of_lt (hrel (pyLower w) hwm2)

/-- Claim C6 witness: with three rows spelled `Dale Scaiano` and one spelled
`dale Scaiano`, resolving `dale scaiano` returns the majority spelling. -/
theorem claim_C6_witness :
    variantsOf "dale scaiano" avDale ≠ [] ∧
    get_canonical_name "dale scaiano" avDale = "Dale Scaiano" := by
  constructor
  · decide
  · obtain ⟨r, hr, -, -, -⟩ := (claim_C6 "dale scaiano" avDale).2 (by decide)
    exact hr.trans (by rw [← hr]; decide)

end Matt
